import Mathlib

/-!
Verification of the column-usage extraction of `databuilder.sql_parser.usage`:
the data model (`Table` / `OrTable` / `Column`), the resolution algorithm
`Column.resolve`, and the two dialect listeners
(`sqlserver/column_usage_provider.py` and `presto/column_usage_provider.py`)
are embedded as pure Lean functions, and the documented properties of the
engine are proved or refuted against this embedding.

The dialect listeners are translated directly from their Python sources.
The shared value types and `Column.resolve` live in
`databuilder/sql_parser/usage/column.py`, which is not available here, so
they are modelled from the specification (sections 3 and 4.1); definitions
doing so carry a doc comment starting with "Modelled from the spec:".
-/

/-! ### Character-level model of the Python string primitives used -/

/-- Model of Python `str.upper` on a single character, restricted to the
ASCII letters that appear in SQL identifiers. Non-letter characters are
unchanged. -/
def upperChar : Char → Char
  | 'a' => 'A' | 'b' => 'B' | 'c' => 'C' | 'd' => 'D' | 'e' => 'E' | 'f' => 'F'
  | 'g' => 'G' | 'h' => 'H' | 'i' => 'I' | 'j' => 'J' | 'k' => 'K' | 'l' => 'L'
  | 'm' => 'M' | 'n' => 'N' | 'o' => 'O' | 'p' => 'P' | 'q' => 'Q' | 'r' => 'R'
  | 's' => 'S' | 't' => 'T' | 'u' => 'U' | 'v' => 'V' | 'w' => 'W' | 'x' => 'X'
  | 'y' => 'Y' | 'z' => 'Z'
  | c => c

/-- The ASCII uppercase letters. -/
def upsList : List Char :=
  ['A','B','C','D','E','F','G','H','I','J','K','L','M',
   'N','O','P','Q','R','S','T','U','V','W','X','Y','Z']

/-- The ASCII lowercase letters. -/
def lowsList : List Char :=
  ['a','b','c','d','e','f','g','h','i','j','k','l','m',
   'n','o','p','q','r','s','t','u','v','w','x','y','z']

/-- Model of Python `str.upper` on a whole string. -/
def pyUpper (s : String) : String :=
  String.mk (s.data.map upperChar)

/-- Model of Python `str.rstrip(c)`: remove every trailing occurrence of the
character `c`. -/
def pyRstrip (s : String) (c : Char) : String :=
  String.mk ((s.data.reverse.dropWhile (fun x => x == c)).reverse)

/-- Model of Python `str.split(sep)` for a one-character separator, on the
character list of the string. Always returns a non-empty list of segments. -/
def splitOnChar (sep : Char) : List Char → List (List Char)
  | [] => [[]]
  | c :: cs =>
    let rest := splitOnChar sep cs
    if c == sep then [] :: rest
    else
      match rest with
      | r :: rs => (c :: r) :: rs
      | [] => [[c]]

/-- Python `table_name.split(".")` as used by both dialect listeners. -/
def pySplitDot (txt : String) : List String :=
  (splitOnChar '.' txt.data).map String.mk

/-- Modelled from the spec: `remove_double_quotes` of
`databuilder/sql_parser/usage/column.py` (not available under `src/`).
Quoted identifiers have their double-quote characters stripped before use as
aliases (section 6). -/
def removeDoubleQuotes (s : String) : String :=
  String.mk (s.data.filter (fun c => !(c == '"')))

/-! ### Data model

Modelled from the spec, section 3, matching the constructors
`Table(name, schema, alias)`, `OrTable(tables)` and
`Column(name, table, col_alias)` used by the dialect listeners and their
tests. -/

/-- Modelled from the spec: a physical or derived relation, section 3 of the
specification (`column.py` is not available under `src/`). -/
structure Table where
  name : String
  schema : Option String := none
  tableAlias : Option String := none
deriving Repr, DecidableEq

/-- Modelled from the spec: the origin of a column is either a single table
or an `OrTable`, an ordered list of alternative tables recording genuine
ambiguity (section 3). -/
inductive TableRef where
  | tbl (t : Table)
  | orTable (tables : List Table)
deriving Repr, DecidableEq

/-- Attach a source alias to an origin. The spec gives `OrTable` only its
list of alternatives (section 3), so attaching an alias to an ambiguous
origin leaves the alternatives unchanged. -/
def TableRef.withAlias : TableRef → String → TableRef
  | .tbl t, a => .tbl { t with tableAlias := some a }
  | .orTable ts, _ => .orTable ts

/-- Modelled from the spec: a selected column, section 3. `col_name = "*"`
is the wildcard sentinel; `table = none` only transiently before
resolution. -/
structure Column where
  col_name : String
  table : Option TableRef := none
  col_alias : Option String := none
deriving Repr, DecidableEq

/-! ### Resolution algorithm

Modelled from the spec, section 4.1 (`Column.resolve` of `column.py` is not
available under `src/`). -/

/-- First-occurrence deduplication with an accumulator of already-seen
tables. -/
def dedupTablesAux : List Table → List Table → List Table
  | [], _ => []
  | t :: ts, seen =>
    if t ∈ seen then dedupTablesAux ts seen
    else t :: dedupTablesAux ts (t :: seen)

/-- The distinct tables of a list, first occurrences kept in order. -/
def dedupTables (l : List Table) : List Table :=
  dedupTablesAux l []

/-- Modelled from the spec: the explicit qualifier of a column reference is
the table-name token recorded on it when it was parsed (section 4.1,
step 1). -/
def qualifierOf (col : Column) : Option String :=
  match col.table with
  | some (.tbl t) => some t.name
  | _ => none

/-- Modelled from the spec: a candidate matches a qualifier when its table's
alias - or, absent an alias, its name - equals the qualifier (section 4.1,
step 1). An ambiguous (`OrTable`) candidate has no single name and never
matches. -/
def matchesQualifier (q : String) (c : Column) : Bool :=
  match c.table with
  | some (.tbl t) => (t.tableAlias.getD t.name) == q
  | _ => false

/-- The distinct tables occurring among the origins of a list of resolved
columns, `OrTable` alternatives flattened, in first-occurrence order. -/
def resolvedTables (cols : List Column) : List Table :=
  dedupTables (cols.flatMap fun c =>
    match c.table with
    | some (.tbl t) => [t]
    | some (.orTable ts) => ts
    | none => [])

/-- Modelled from the spec: the output column's alias is the outer
reference's own alias if one was given, otherwise it is inherited from the
matched source column (section 4.1, step 5). -/
def aliasFor (outer : Option String) (inherited : Option String) : Option String :=
  match outer with
  | some a => some a
  | none => inherited

/-- Modelled from the spec: steps 2 and 3 of the resolution algorithm
(section 4.1). For a wildcard reference every candidate is emitted,
wildcard candidates keeping `col_name = "*"` and concrete candidates
emitted verbatim. For a named reference, exact `col_name` matches are
preferred, then `col_alias` matches, then wildcard-table candidates with
the requested name attached. -/
def resolveMatches (col : Column) (candidates : List Column) : List Column :=
  if col.col_name == "*" then
    candidates.map fun cand =>
      if cand.col_name == "*" then
        { col_name := "*", table := cand.table,
          col_alias := aliasFor col.col_alias cand.col_alias }
      else cand
  else
    let exactMatches := candidates.filter fun c => c.col_name == col.col_name
    let aliasMatches := candidates.filter fun c => c.col_alias == some col.col_name
    let wildcardMatches := candidates.filter fun c => c.col_name == "*"
    if !exactMatches.isEmpty then
      exactMatches.map fun cand =>
        { col_name := cand.col_name, table := cand.table,
          col_alias := aliasFor col.col_alias cand.col_alias }
    else if !aliasMatches.isEmpty then
      aliasMatches.map fun cand =>
        { col_name := cand.col_name, table := cand.table,
          col_alias := aliasFor col.col_alias cand.col_alias }
    else
      wildcardMatches.map fun cand =>
        { col_name := col.col_name, table := cand.table,
          col_alias := aliasFor col.col_alias cand.col_alias }

/-- Modelled from the spec: step 4 of the resolution algorithm
(section 4.1). When the matches involve more than one distinct table and no
qualifier was present, they collapse into a single column whose origin is an
`OrTable` of the distinct tables, preserving the requested name and
alias. -/
def collapseAmbiguity (col : Column) (results : List Column) : List Column :=
  let ts := resolvedTables results
  if 2 ≤ ts.length && (qualifierOf col).isNone then
    [{ col_name := col.col_name, table := some (.orTable ts),
       col_alias := col.col_alias }]
  else results

/-- Modelled from the spec: `Column.resolve(col, processed_cols)` of
`column.py` (not available under `src/`), assembled from steps 1-5 of
section 4.1. -/
def Column.resolve (col : Column) (processedCols : List Column) : List Column :=
  let candidates :=
    match qualifierOf col with
    | none => processedCols
    | some q => processedCols.filter (matchesQualifier q)
  collapseAmbiguity col (resolveMatches col candidates)

/-! ### Listener state

Both dialect listeners carry the same four fields
(`sqlserver/column_usage_provider.py` lines 26-31,
`presto/column_usage_provider.py` lines 30-35). -/

/-- The mutable state of a `ColumnUsageListener`: resolved source columns,
pending select-list columns, the column currently being assembled, and the
stack of postponed processing sequences of enclosing scopes. -/
structure ListenerState where
  processed_cols : List Column := []
  processing_cols : List Column := []
  current_col : Option Column := none
  stack : List (List Column) := []
deriving Repr, DecidableEq

/-- The state of a freshly constructed `ColumnUsageListener`. -/
def initState : ListenerState := {}

namespace TSql

/-- `exitColumn_elem` of the T-SQL listener: build the pending column from
the element's column name, optional table qualifier and optional column
alias. -/
def exitColumn_elem (s : ListenerState) (column_name : String)
    (table_name : Option String) (as_column_alias : Option String) :
    ListenerState :=
  let c : Column :=
    match table_name with
    | some tn => { col_name := column_name, table := some (.tbl { name := tn, schema := none }) }
    | none => { col_name := column_name }
  let c :=
    match as_column_alias with
    | some a => { c with col_alias := some (removeDoubleQuotes a) }
    | none => c
  { s with current_col := some c }

/-- `exitAsterisk` of the T-SQL listener: build a wildcard pending column
(with the optional table qualifier), drop the last processing entry when it
is itself a wildcard - the callback fires multiple times for one syntactic
asterisk - and append the new wildcard; the pending column is cleared. -/
def exitAsterisk (s : ListenerState) (table_name : Option String) :
    ListenerState :=
  let c : Column :=
    { col_name := "*", table := table_name.map fun tn => .tbl { name := tn } }
  let processing :=
    match s.processing_cols.getLast? with
    | some lastCol =>
      if lastCol.col_name == "*" then s.processing_cols.dropLast
      else s.processing_cols
    | none => s.processing_cols
  { s with processing_cols := processing ++ [c], current_col := none }

/-- `exitSelect_list_elem` of the T-SQL listener: move the pending column,
when there is one, to the processing sequence; otherwise return
unchanged. -/
def exitSelect_list_elem (s : ListenerState) : ListenerState :=
  match s.current_col with
  | none => s
  | some c =>
    { s with processing_cols := s.processing_cols ++ [c], current_col := none }

/-- `exitTable_name` of the T-SQL listener: split the reference text on the
dot; with a dot present the table is `Table(parts[-1], schema=parts[-2])`,
otherwise `Table(text)`; the pending column becomes a wildcard tagged with
this table. -/
def exitTable_name (s : ListenerState) (text : String) : ListenerState :=
  let table : Table :=
    if text.data.contains '.' then
      let db_tbl := pySplitDot text
      { name := db_tbl.getD (db_tbl.length - 1) "",
        schema := some (db_tbl.getD (db_tbl.length - 2) "") }
    else { name := text }
  { s with current_col := some { col_name := "*", table := some (.tbl table) } }

/-- `exitTable_source_item` of the T-SQL listener: with a pending column,
attach the source alias (when both a table and an alias are present) and
push the pending column into the processed sequence; with no pending column
and an alias present, propagate the alias onto the table of every processed
entry. -/
def exitTable_source_item (s : ListenerState) (as_table_alias : Option String) :
    ListenerState :=
  match s.current_col with
  | some c =>
    let c :=
      match c.table, as_table_alias with
      | some tr, some a =>
        { c with table := some (tr.withAlias (removeDoubleQuotes a)) }
      | _, _ => c
    { s with processed_cols := s.processed_cols ++ [c], current_col := none }
  | none =>
    match as_table_alias with
    | some a =>
      { s with processed_cols := s.processed_cols.map fun col =>
          { col with table := col.table.map fun tr => tr.withAlias (removeDoubleQuotes a) } }
    | none => s

/-- `enterQuery_specification` of the T-SQL listener: entering a nested
SELECT with pending processing columns pushes them onto the stack and
starts a fresh processing sequence. -/
def enterQuery_specification (s : ListenerState) : ListenerState :=
  if s.processing_cols.isEmpty then s
  else { s with stack := s.stack ++ [s.processing_cols], processing_cols := [] }

/-- `exitQuery_specification` of the T-SQL listener: resolve every
processing column against the processed sequence, flatten the results into
the new processed sequence, restore the processing sequence from the stack
when it is non-empty, and clear the pending column. -/
def exitQuery_specification (s : ListenerState) : ListenerState :=
  let result := s.processing_cols.flatMap fun col => col.resolve s.processed_cols
  match s.stack.getLast? with
  | some top =>
    { processed_cols := result, processing_cols := top,
      stack := s.stack.dropLast, current_col := none }
  | none =>
    { processed_cols := result, processing_cols := [],
      stack := s.stack, current_col := none }

/-- The canonical events of the T-SQL listener, one per handled ANTLR
callback, carrying the fields of the callback context that the handler
reads. -/
inductive Event where
  | column_elem (column_name : String) (table_name : Option String)
      (as_column_alias : Option String)
  | asterisk (table_name : Option String)
  | select_list_elem
  | table_name (text : String)
  | table_source_item (as_table_alias : Option String)
  | enterQuerySpec
  | exitQuerySpec
deriving Repr, DecidableEq

/-- Dispatch one walker callback to its handler. -/
def step (s : ListenerState) : Event → ListenerState
  | .column_elem n t a => exitColumn_elem s n t a
  | .asterisk t => exitAsterisk s t
  | .select_list_elem => exitSelect_list_elem s
  | .table_name t => exitTable_name s t
  | .table_source_item a => exitTable_source_item s a
  | .enterQuerySpec => enterQuery_specification s
  | .exitQuerySpec => exitQuery_specification s

/-- Walk a whole callback sequence from a given listener state. -/
def run (s : ListenerState) (events : List Event) : ListenerState :=
  events.foldl step s

/-- Modelled from the spec: `ColumnUsageProvider.get_columns` constructs a
fresh listener, has the external T-SQL parser walk the tree of the
(pre-processed) query - modelled as the canonical event sequence the walk
produces - and returns the listener's processed columns. The `prior`
argument stands for the final state of any earlier listener; a fresh
listener is constructed per call (line 194 of the source), so it is
discarded. -/
def getColumnsAfter (_prior : ListenerState) (events : List Event) :
    List Column :=
  (run initState events).processed_cols

end TSql

namespace Presto

/-- `exitColumnReference` of the Presto listener: a column reference with no
table indicator becomes the pending column. -/
def exitColumnReference (s : ListenerState) (text : String) : ListenerState :=
  { s with current_col := some { col_name := text } }

/-- `exitDereference` of the Presto listener: a column reference with a
table indicator, such as `foo.bar`, becomes the pending column with the
base text as its table qualifier. -/
def exitDereference (s : ListenerState) (base : String) (identifier : String) :
    ListenerState :=
  let c : Column := { col_name := identifier, table := some (.tbl { name := base }) }
  { s with current_col := some c }

/-- `exitSelectSingle` of the Presto listener: with no pending column the
event returns unchanged; otherwise the optional alias identifier is
attached and the pending column moves to the processing sequence. -/
def exitSelectSingle (s : ListenerState) (identifier : Option String) :
    ListenerState :=
  match s.current_col with
  | none => s
  | some c =>
    let c :=
      match identifier with
      | some i => { c with col_alias := some (removeDoubleQuotes i) }
      | none => c
    { s with processing_cols := s.processing_cols ++ [c], current_col := none }

/-- `exitSelectAll` of the Presto listener: a wildcard select item, with the
optional qualified name as its table, is appended to the processing
sequence unconditionally; the pending column is cleared. -/
def exitSelectAll (s : ListenerState) (qualifiedName : Option String) :
    ListenerState :=
  let c : Column :=
    { col_name := "*", table := qualifiedName.map fun q => .tbl { name := q } }
  { s with processing_cols := s.processing_cols ++ [c], current_col := none }

/-- `exitTableName` of the Presto listener: same dot-splitting as the T-SQL
`exitTable_name`, indexing `db_tbl[len(db_tbl)-1]` and
`db_tbl[len(db_tbl)-2]`. -/
def exitTableName (s : ListenerState) (text : String) : ListenerState :=
  let table : Table :=
    if text.data.contains '.' then
      let db_tbl := pySplitDot text
      { name := db_tbl.getD (db_tbl.length - 1) "",
        schema := some (db_tbl.getD (db_tbl.length - 2) "") }
    else { name := text }
  { s with current_col := some { col_name := "*", table := some (.tbl table) } }

/-- `exitAliasedRelation` of the Presto listener: with no alias identifier
the event is a no-op; with a pending column that carries a table the alias
is attached to that table; otherwise the alias is propagated onto the table
of every processed entry. -/
def exitAliasedRelation (s : ListenerState) (identifier : Option String) :
    ListenerState :=
  match identifier with
  | none => s
  | some i =>
    let propagate : List Column := s.processed_cols.map fun col =>
      { col with table := col.table.map fun tr => tr.withAlias (removeDoubleQuotes i) }
    match s.current_col with
    | some c =>
      match c.table with
      | some tr =>
        let c2 : Column := { c with table := some (tr.withAlias (removeDoubleQuotes i)) }
        { s with current_col := some c2 }
      | none => { s with processed_cols := propagate }
    | none => { s with processed_cols := propagate }

/-- `exitRelationDefault` of the Presto listener: when a pending column
exists at the exit of a FROM-clause relation it moves to the processed
sequence. -/
def exitRelationDefault (s : ListenerState) : ListenerState :=
  match s.current_col with
  | none => s
  | some c =>
    { s with processed_cols := s.processed_cols ++ [c], current_col := none }

/-- `enterQuerySpecification` of the Presto listener: identical to the
T-SQL `enterQuery_specification`. -/
def enterQuerySpecification (s : ListenerState) : ListenerState :=
  if s.processing_cols.isEmpty then s
  else { s with stack := s.stack ++ [s.processing_cols], processing_cols := [] }

/-- `exitQuerySpecification` of the Presto listener: identical to the T-SQL
`exitQuery_specification`. -/
def exitQuerySpecification (s : ListenerState) : ListenerState :=
  let result := s.processing_cols.flatMap fun col => col.resolve s.processed_cols
  match s.stack.getLast? with
  | some top =>
    { processed_cols := result, processing_cols := top,
      stack := s.stack.dropLast, current_col := none }
  | none =>
    { processed_cols := result, processing_cols := [],
      stack := s.stack, current_col := none }

/-- The canonical events of the Presto listener, one per handled ANTLR
callback. -/
inductive Event where
  | columnReference (text : String)
  | dereference (base : String) (identifier : String)
  | selectSingle (identifier : Option String)
  | selectAll (qualifiedName : Option String)
  | tableName (text : String)
  | aliasedRelation (identifier : Option String)
  | relationDefault
  | enterQuerySpec
  | exitQuerySpec
deriving Repr, DecidableEq

/-- Dispatch one walker callback to its handler. -/
def step (s : ListenerState) : Event → ListenerState
  | .columnReference t => exitColumnReference s t
  | .dereference b i => exitDereference s b i
  | .selectSingle i => exitSelectSingle s i
  | .selectAll q => exitSelectAll s q
  | .tableName t => exitTableName s t
  | .aliasedRelation i => exitAliasedRelation s i
  | .relationDefault => exitRelationDefault s
  | .enterQuerySpec => enterQuerySpecification s
  | .exitQuerySpec => exitQuerySpecification s

/-- Walk a whole callback sequence from a given listener state. -/
def run (s : ListenerState) (events : List Event) : ListenerState :=
  events.foldl step s

/-- Modelled from the spec: `ColumnUsageProvider.get_columns` of the Presto
provider; a fresh listener is constructed per call (line 228 of the
source), so the final state `prior` of any earlier listener is
discarded. -/
def getColumnsAfter (_prior : ListenerState) (events : List Event) :
    List Column :=
  (run initState events).processed_cols

end Presto

/-- The pre-processing `get_columns` applies to the raw query text before
parsing, identical in both providers: `query.rstrip(";").upper() + "\n"`. -/
def preprocess (query : String) : String :=
  pyUpper (pyRstrip query ';') ++ "\n"

/-! ### Concrete walker traces -/

/-- Modelled from the spec: the canonical event sequence the external T-SQL
parser collaborator produces, in document order (section 6), when walking
the pre-processed query
`SELECT A, B FROM SCM.FOO JOIN BAR ON FOO.A = BAR.B`. The two trailing
`table_name` events come from the qualified references inside the ON
clause, whose `full_column_name` nodes contain `table_name` children. -/
def joinQueryEvents : List TSql.Event :=
  [ .enterQuerySpec,
    .column_elem "A" none none,
    .select_list_elem,
    .column_elem "B" none none,
    .select_list_elem,
    .table_name "SCM.FOO",
    .table_source_item none,
    .table_name "BAR",
    .table_source_item none,
    .table_name "FOO",
    .table_name "BAR",
    .exitQuerySpec ]

/-- Modelled from the spec: the canonical event sequence of the T-SQL walk
of the pre-processed query
`SELECT TMP1.A, F FROM (SELECT A, B AS F, C FROM FOOBAR) AS TMP1`.
The early `table_name` event comes from the qualifier of `TMP1.A` inside
the select list. -/
def innerAliasQueryEvents : List TSql.Event :=
  [ .enterQuerySpec,
    .table_name "TMP1",
    .column_elem "A" (some "TMP1") none,
    .select_list_elem,
    .column_elem "F" none none,
    .select_list_elem,
    .enterQuerySpec,
    .column_elem "A" none none,
    .select_list_elem,
    .column_elem "B" none (some "F"),
    .select_list_elem,
    .column_elem "C" none none,
    .select_list_elem,
    .table_name "FOOBAR",
    .table_source_item none,
    .exitQuerySpec,
    .table_source_item (some "TMP1"),
    .exitQuerySpec ]

/-! ### Claim theorems -/

/-- C1: for `SELECT a, b FROM scm.foo JOIN bar ON foo.a = bar.b`,
`get_columns` returns exactly two columns in select-list order, column A
then column B, each carrying an `OrTable` whose alternatives are the two
distinct source tables FOO (schema SCM) and BAR. -/
theorem c1_join_ambiguity :
    TSql.getColumnsAfter initState joinQueryEvents =
      [ { col_name := "A",
          table := some (.orTable
            [ { name := "FOO", schema := some "SCM" },
              { name := "BAR" } ]) },
        { col_name := "B",
          table := some (.orTable
            [ { name := "FOO", schema := some "SCM" },
              { name := "BAR" } ]) } ] := by
  rfl

/-- C2: for `SELECT tmp1.a, f FROM (SELECT a, b AS f, c FROM foobar) AS
tmp1`, `get_columns` returns column A (table FOOBAR aliased TMP1, no column
alias) and then a column whose `col_name` is the original inner name B,
whose `col_alias` is F, and whose table is FOOBAR aliased TMP1. -/
theorem c2_inner_alias_recovery :
    TSql.getColumnsAfter initState innerAliasQueryEvents =
      [ { col_name := "A",
          table := some (.tbl { name := "FOOBAR", tableAlias := some "TMP1" }) },
        { col_name := "B",
          table := some (.tbl { name := "FOOBAR", tableAlias := some "TMP1" }),
          col_alias := some "F" } ] := by
  rfl

/-- C9: the output of `get_columns` is a function of the walked event
sequence alone: each call constructs a fresh listener (Presto source line
228, T-SQL source line 194) and a fresh parser, so the final state of any
earlier listener - the `prior` argument - cannot influence the result, and
two invocations on the same text yield structurally identical output. -/
theorem c9_purity :
    ∀ (p1 p2 : ListenerState) (es : List TSql.Event) (ps : List Presto.Event),
      TSql.getColumnsAfter p1 es = TSql.getColumnsAfter p2 es ∧
      Presto.getColumnsAfter p1 ps = Presto.getColumnsAfter p2 ps :=
  fun _ _ _ _ => ⟨rfl, rfl⟩

/-- C10: the scope-exit handler of each dialect discards the pending
column: its result does not depend on `current_col`, leaves `current_col`
empty, and builds the new processed sequence purely from the resolution of
the processing sequence against the processed sequence, so a reference
visited after the select list and FROM clause (for example inside ON or
WHERE) never reaches the output. -/
theorem c10_pending_discarded_at_scope_exit :
    ∀ (s : ListenerState) (c1 c2 : Option Column),
      TSql.exitQuery_specification { s with current_col := c1 }
          = TSql.exitQuery_specification { s with current_col := c2 }
      ∧ (TSql.exitQuery_specification s).current_col = none
      ∧ (TSql.exitQuery_specification s).processed_cols
          = s.processing_cols.flatMap (fun col => col.resolve s.processed_cols)
      ∧ Presto.exitQuerySpecification { s with current_col := c1 }
          = Presto.exitQuerySpecification { s with current_col := c2 }
      ∧ (Presto.exitQuerySpecification s).current_col = none
      ∧ (Presto.exitQuerySpecification s).processed_cols
          = s.processing_cols.flatMap (fun col => col.resolve s.processed_cols) := by
  intro s c1 c2
  refine ⟨rfl, ?_, ?_, rfl, ?_, ?_⟩ <;>
    · simp only [TSql.exitQuery_specification, Presto.exitQuerySpecification]
      cases s.stack.getLast? <;> simp

/-- C4, counterexample: in the Presto adapter the wildcard select-list
handler `exitSelectAll` never replaces - firing it on a state whose
processing sequence already ends with an unqualified wildcard appends a
second wildcard entry instead of replacing the first, producing a
duplicate. -/
theorem c4_counterexample :
    (Presto.exitSelectAll
        { processing_cols := [ { col_name := "*" } ] } none).processing_cols
      = [ { col_name := "*" }, { col_name := "*" } ]
    ∧ ([ { col_name := "*" }, { col_name := "*" } ] : List Column)
        ≠ [ { col_name := "*" } ] := by
  exact ⟨rfl, by decide⟩

/-- C4, amended: only the T-SQL adapter deduplicates repeated wildcard
events, and it does so whenever the last processing entry is a wildcard,
regardless of whether the two table qualifiers agree; the Presto adapter
appends unconditionally. -/
theorem c4_wildcard_dedup_amended :
    (∀ (s : ListenerState) (tn : Option String) (lastCol : Column),
      s.processing_cols.getLast? = some lastCol → lastCol.col_name = "*" →
      (TSql.exitAsterisk s tn).processing_cols
        = s.processing_cols.dropLast
            ++ [ { col_name := "*", table := tn.map fun n => .tbl { name := n } } ])
    ∧ (∀ (s : ListenerState) (qn : Option String),
      (Presto.exitSelectAll s qn).processing_cols
        = s.processing_cols
            ++ [ { col_name := "*", table := qn.map fun n => .tbl { name := n } } ]) := by
  constructor
  · intro s tn lastCol hlast hstar
    simp only [TSql.exitAsterisk, hlast, hstar]
    simp
  · intro s qn
    rfl

/-- Witness for the amended C4 at a concrete state: a second unqualified
wildcard event in the T-SQL adapter replaces the wildcard already at the
end of the processing sequence. -/
theorem c4_wildcard_dedup_amended_witness :
    (TSql.exitAsterisk
        { processing_cols := [ { col_name := "*" } ] } none).processing_cols
      = [ { col_name := "*" } ] := by
  have h := c4_wildcard_dedup_amended.1
    { processing_cols := [ { col_name := "*" } ] } none { col_name := "*" }
    (by rfl) (by rfl)
  simpa using h

/-- C8, counterexample: a select-list-item event arriving with no pending
column is silently ignored by both dialect adapters - the listener state is
returned entirely unchanged, with no fault of any kind - contradicting the
claim that such a structural violation is treated as a fatal
internal-consistency fault. -/
theorem c8_counterexample :
    TSql.exitSelect_list_elem
        { processing_cols := [ { col_name := "A" } ] }
      = { processing_cols := [ { col_name := "A" } ] }
    ∧ Presto.exitSelectSingle
        { processing_cols := [ { col_name := "A" } ] } (some "X")
      = { processing_cols := [ { col_name := "A" } ] } :=
  ⟨rfl, rfl⟩

/-- C8, amended: when a select-list-item event fires with no pending
column, both dialect adapters silently ignore it, returning the listener
state unchanged (the guard `if not self._current_col: return`); no fault is
raised. -/
theorem c8_silent_ignore_amended :
    ∀ (s : ListenerState), s.current_col = none →
      TSql.exitSelect_list_elem s = s
      ∧ ∀ (i : Option String), Presto.exitSelectSingle s i = s := by
  intro s h
  constructor
  · simp only [TSql.exitSelect_list_elem, h]
  · intro i
    simp only [Presto.exitSelectSingle, h]

/-- Witness for the amended C8 at a concrete state. -/
theorem c8_silent_ignore_amended_witness :
    TSql.exitSelect_list_elem
        { processing_cols := [ { col_name := "A" } ] }
      = { processing_cols := [ { col_name := "A" } ] }
    ∧ Presto.exitSelectSingle
        { processing_cols := [ { col_name := "A" } ] } (some "X")
      = { processing_cols := [ { col_name := "A" } ] } := by
  have h := c8_silent_ignore_amended
    { processing_cols := [ { col_name := "A" } ] } (by rfl)
  exact ⟨h.1, h.2 (some "X")⟩

/-- Propagation of a source alias onto the table of every column of a
list, as the claim describes it for the derived-table case. -/
def aliasEveryTable (a : String) (cols : List Column) : List Column :=
  cols.map fun col =>
    { col with table := col.table.map fun tr => tr.withAlias (removeDoubleQuotes a) }

/-- C6: when a source-alias event fires while a pending table-reference
column exists, the alias is attached to that pending column's table only,
the entries already in the processed sequence staying untouched (the T-SQL
handler additionally pushes the pending column, the Presto handler keeps it
pending); when no pending column exists, the alias is propagated onto the
table of every entry of the processed sequence, whose length and order are
unchanged. -/
theorem c6_source_alias :
    (∀ (s : ListenerState) (c : Column) (tr : TableRef) (a : String),
      s.current_col = some c → c.table = some tr →
      (TSql.exitTable_source_item s (some a)).processed_cols
          = s.processed_cols
              ++ [ { c with table := some (tr.withAlias (removeDoubleQuotes a)) } ]
        ∧ (TSql.exitTable_source_item s (some a)).current_col = none)
    ∧ (∀ (s : ListenerState) (c : Column) (tr : TableRef) (a : String),
      s.current_col = some c → c.table = some tr →
      (Presto.exitAliasedRelation s (some a)).current_col
          = some { c with table := some (tr.withAlias (removeDoubleQuotes a)) }
        ∧ (Presto.exitAliasedRelation s (some a)).processed_cols
            = s.processed_cols)
    ∧ (∀ (s : ListenerState) (a : String),
      s.current_col = none →
      (TSql.exitTable_source_item s (some a)).processed_cols
          = aliasEveryTable a s.processed_cols
        ∧ (TSql.exitTable_source_item s (some a)).processed_cols.length
            = s.processed_cols.length)
    ∧ (∀ (s : ListenerState) (a : String),
      s.current_col = none →
      (Presto.exitAliasedRelation s (some a)).processed_cols
          = aliasEveryTable a s.processed_cols
        ∧ (Presto.exitAliasedRelation s (some a)).processed_cols.length
            = s.processed_cols.length) := by
  refine ⟨?_, ?_, ?_, ?_⟩
  · intro s c tr a hc htr
    simp only [TSql.exitTable_source_item, hc, htr]
    simp
  · intro s c tr a hc htr
    simp only [Presto.exitAliasedRelation, hc, htr]
    simp
  · intro s a hc
    simp only [TSql.exitTable_source_item, hc, aliasEveryTable]
    simp
  · intro s a hc
    simp only [Presto.exitAliasedRelation, hc, aliasEveryTable]
    simp

/-- Witness for C6 at concrete states: the alias X lands on the single
pending table-reference column in the first two cases, and on the one
processed entry in the last two. -/
theorem c6_source_alias_witness :
    ((TSql.exitTable_source_item
        { current_col := some { col_name := "*", table := some (.tbl { name := "T" }) } }
        (some "X")).processed_cols
      = [ { col_name := "*",
            table := some (.tbl { name := "T", tableAlias := some "X" }) } ])
    ∧ ((Presto.exitAliasedRelation
        { current_col := some { col_name := "*", table := some (.tbl { name := "T" }) } }
        (some "X")).current_col
      = some { col_name := "*",
               table := some (.tbl { name := "T", tableAlias := some "X" }) })
    ∧ ((TSql.exitTable_source_item
        { processed_cols := [ { col_name := "B", table := some (.tbl { name := "U" }) } ] }
        (some "X")).processed_cols
      = [ { col_name := "B",
            table := some (.tbl { name := "U", tableAlias := some "X" }) } ])
    ∧ ((Presto.exitAliasedRelation
        { processed_cols := [ { col_name := "B", table := some (.tbl { name := "U" }) } ] }
        (some "X")).processed_cols
      = [ { col_name := "B",
            table := some (.tbl { name := "U", tableAlias := some "X" }) } ]) := by
  refine ⟨?_, ?_, ?_, ?_⟩
  · have h := (c6_source_alias.1
      { current_col := some { col_name := "*", table := some (.tbl { name := "T" }) } }
      { col_name := "*", table := some (.tbl { name := "T" }) }
      (.tbl { name := "T" }) "X" (by rfl) (by rfl)).1
    simpa using h
  · have h := (c6_source_alias.2.1
      { current_col := some { col_name := "*", table := some (.tbl { name := "T" }) } }
      { col_name := "*", table := some (.tbl { name := "T" }) }
      (.tbl { name := "T" }) "X" (by rfl) (by rfl)).1
    simpa using h
  · have h := (c6_source_alias.2.2.1
      { processed_cols := [ { col_name := "B", table := some (.tbl { name := "U" }) } ] }
      "X" (by rfl)).1
    simpa [aliasEveryTable] using h
  · have h := (c6_source_alias.2.2.2
      { processed_cols := [ { col_name := "B", table := some (.tbl { name := "U" }) } ] }
      "X" (by rfl)).1
    simpa [aliasEveryTable] using h

/-- Getting the element at index `length - 1` is getting the last element. -/
theorem getD_length_sub_one {α : Type} :
    ∀ (l : List α) (d : α), l.getD (l.length - 1) d = l.getLastD d
  | [], _ => rfl
  | [_], _ => rfl
  | a :: b :: t, d => by
    have ih := getD_length_sub_one (b :: t) d
    have hlen : (a :: b :: t).length - 1 = (b :: t).length - 1 + 1 := by
      simp [List.length_cons]
    rw [hlen, List.getD_cons_succ, ih]
    simp [List.getLastD_eq_getLast?, List.getLast?]

/-- For a list with at least two elements, the element at index
`length - 2` is the last element of `dropLast`. -/
theorem getD_length_sub_two {α : Type} :
    ∀ (l : List α) (d : α), 2 ≤ l.length →
      l.getD (l.length - 2) d = l.dropLast.getLastD d
  | [], _, h => by simp at h
  | [_], _, h => by simp at h
  | a :: b :: t, d, _ => by
    have h1 : (a :: b :: t).dropLast.getLastD d
        = (a :: b :: t).dropLast.getD ((a :: b :: t).dropLast.length - 1) d :=
      (getD_length_sub_one _ _).symm
    rw [h1]
    have h2 : (a :: b :: t).dropLast.length = (a :: b :: t).length - 1 := by
      simp
    rw [h2]
    have h3 : (a :: b :: t).length - 1 - 1 = (a :: b :: t).length - 2 := by
      omega
    rw [h3]
    have h4 : (a :: b :: t).length - 2 < (a :: b :: t).length - 1 := by
      simp
    clear h1 h2 h3
    generalize (a :: b :: t).length - 2 = i at h4
    revert h4
    generalize (a :: b :: t) = l
    intro h4
    induction l generalizing i with
    | nil => simp at h4
    | cons x xs ih =>
      cases i with
      | zero =>
        cases xs with
        | nil => simp at h4
        | cons y ys => rfl
      | succ j =>
        cases xs with
        | nil => simp at h4
        | cons y ys =>
          have := ih j (by simpa using h4)
          simpa [List.getD_cons_succ] using this

/-- The split of a character list is never empty. -/
theorem splitOnChar_ne_nil (sep : Char) (l : List Char) :
    splitOnChar sep l ≠ [] := by
  cases l with
  | nil => simp [splitOnChar]
  | cons c cs =>
    simp only [splitOnChar]
    by_cases h : (c == sep) = true
    · simp [h]
    · simp only [h]
      cases hr : splitOnChar sep cs <;> simp

/-- A list containing the separator splits into at least two segments. -/
theorem splitOnChar_length_of_mem (sep : Char) :
    ∀ (l : List Char), sep ∈ l → 2 ≤ (splitOnChar sep l).length := by
  intro l hmem
  induction l with
  | nil => simp at hmem
  | cons c cs ih =>
    simp only [splitOnChar]
    by_cases h : (c == sep) = true
    · simp only [h, if_pos]
      have := splitOnChar_ne_nil sep cs
      have hlen : 1 ≤ (splitOnChar sep cs).length := by
        cases hr : splitOnChar sep cs with
        | nil => exact absurd hr this
        | cons x xs => simp
      simpa using hlen
    · have hc : c ≠ sep := by simpa using h
      have hmem2 : sep ∈ cs := by
        cases hmem with
        | head => exact absurd rfl hc.symm
        | tail _ hm => exact hm
      have := ih hmem2
      simp only [h, if_neg, Bool.false_eq_true, not_false_iff]
      cases hr : splitOnChar sep cs with
      | nil => exact absurd hr (splitOnChar_ne_nil sep cs)
      | cons x xs =>
        rw [hr] at this
        simpa using this

/-- The table a reference text denotes according to the claim: split on
the dot; the last segment is the table name and the segment immediately
before it (when a dot is present) the schema; with no dot the whole text
is the name and the schema is absent. -/
def claimSplitTable (txt : String) : Table :=
  let parts := pySplitDot txt
  if txt.data.contains '.' then
    { name := parts.getLastD "", schema := some (parts.dropLast.getLastD "") }
  else { name := txt, schema := none }

/-- C5: both dialects' table-reference handlers produce a pending wildcard
column whose table is obtained by splitting the reference text on the dot,
the last segment becoming the table name and the segment immediately
before it (when a dot is present) the schema; a reference with no dot
yields a table whose name is the whole text and whose schema is absent. -/
theorem c5_table_reference_split :
    ∀ (s : ListenerState) (txt : String),
      (TSql.exitTable_name s txt).current_col
          = some { col_name := "*", table := some (.tbl (claimSplitTable txt)) }
      ∧ (Presto.exitTableName s txt).current_col
          = some { col_name := "*", table := some (.tbl (claimSplitTable txt)) } := by
  have key : ∀ txt : String,
      (if txt.data.contains '.' then
        { name := (pySplitDot txt).getD ((pySplitDot txt).length - 1) "",
          schema := some ((pySplitDot txt).getD ((pySplitDot txt).length - 2) "") }
       else ({ name := txt } : Table)) = claimSplitTable txt := by
    intro txt
    unfold claimSplitTable
    by_cases h : txt.data.contains '.' = true
    · have hmem : '.' ∈ txt.data := by simpa using h
      have hlen : 2 ≤ (pySplitDot txt).length := by
        have := splitOnChar_length_of_mem '.' txt.data hmem
        simpa [pySplitDot] using this
      rw [if_pos h, if_pos h, getD_length_sub_one, getD_length_sub_two _ _ hlen]
    · rw [if_neg h, if_neg h]
  intro s txt
  constructor
  · show ({ s with current_col := some { col_name := "*", table := some (.tbl _) } }
        : ListenerState).current_col = _
    simp only [TSql.exitTable_name]
    rw [key]
  · simp only [Presto.exitTableName]
    rw [key]

/-- Case analysis for the uppercase model: a character is either a
lowercase letter mapped into the uppercase letters, or left unchanged. -/
theorem upperChar_cases (c : Char) :
    (c ∈ lowsList ∧ upperChar c ∈ upsList) ∨ upperChar c = c := by
  unfold upperChar
  split
  all_goals first
    | (left; constructor <;> decide)
    | (right; rfl)

/-- The uppercase model is idempotent. -/
theorem upperChar_idem (c : Char) : upperChar (upperChar c) = upperChar c := by
  rcases upperChar_cases c with ⟨_, h⟩ | h
  · have hu : ∀ d ∈ upsList, upperChar d = d := by decide
    exact hu _ h
  · rw [h]; exact h

/-- Upper-casing does not introduce or remove semicolons. -/
theorem upperChar_semi (c : Char) : (upperChar c == ';') = (c == ';') := by
  rcases upperChar_cases c with ⟨hc, h⟩ | h
  · have h1 : ∀ d ∈ upsList, (d == ';') = false := by decide
    have h2 : ∀ d ∈ lowsList, (d == ';') = false := by decide
    rw [h1 _ h, h2 _ hc]
  · rw [h]

/-- C7: `get_columns` parses the pre-processed text
`query.rstrip(";").upper() + "\n"` in both dialect providers: the parsed
text is the upper-casing of the query with its trailing semicolons
stripped, appending a trailing statement terminator to the query does not
change the parsed text, and the parsed text is invariant under prior
upper-casing of the query, so identifier case cannot influence it. -/
theorem c7_preprocessing :
    ∀ q : String,
      preprocess q = pyUpper (pyRstrip q ';') ++ "\n"
      ∧ preprocess (q ++ ";") = preprocess q
      ∧ preprocess (pyUpper q) = preprocess q := by
  have hdata : ∀ (a b : String), (a ++ b).data = a.data ++ b.data := by
    intro a b
    rfl
  intro q
  refine ⟨rfl, ?_, ?_⟩
  · show pyUpper (pyRstrip (q ++ ";") ';') ++ "\n" = pyUpper (pyRstrip q ';') ++ "\n"
    have : pyRstrip (q ++ ";") ';' = pyRstrip q ';' := by
      unfold pyRstrip
      rw [hdata]
      simp
    rw [this]
  · show pyUpper (pyRstrip (pyUpper q) ';') ++ "\n" = pyUpper (pyRstrip q ';') ++ "\n"
    have hp : ((fun x => x == ';') ∘ upperChar) = (fun x => x == ';') :=
      funext upperChar_semi
    have hcomp : upperChar ∘ upperChar = upperChar :=
      funext fun c => upperChar_idem c
    have h1 : pyRstrip (pyUpper q) ';' = pyUpper (pyRstrip q ';') := by
      unfold pyRstrip pyUpper
      rw [show ∀ (l : List Char), (List.map upperChar l).reverse = List.map upperChar l.reverse from fun l => (List.map_reverse upperChar l).symm]
      rw [List.dropWhile_map, hp]
      rw [show ∀ (l : List Char), List.map upperChar l.reverse = (List.map upperChar l).reverse from fun l => List.map_reverse upperChar l]
    rw [h1]
    have h2 : pyUpper (pyUpper (pyRstrip q ';')) = pyUpper (pyRstrip q ';') := by
      unfold pyUpper
      rw [List.map_map, hcomp]
    rw [h2]

/-- The claim's invariant on a column origin: whenever the origin is an
`OrTable`, it lists at least two alternatives and they are pairwise
distinct. -/
def goodRef : Option TableRef → Prop
  | some (.orTable ts) => 2 ≤ ts.length ∧ ts.Nodup
  | _ => True

/-- A column satisfies the invariant when its origin does. -/
def goodCol (c : Column) : Prop := goodRef c.table

/-- Every column reachable in a listener state satisfies the `OrTable`
invariant. -/
def goodState (s : ListenerState) : Prop :=
  (∀ c ∈ s.processed_cols, goodCol c) ∧
  (∀ c ∈ s.processing_cols, goodCol c) ∧
  (∀ c, s.current_col = some c → goodCol c) ∧
  (∀ l ∈ s.stack, ∀ c ∈ l, goodCol c)

theorem goodRef_none : goodRef none := trivial

theorem goodRef_tbl (t : Table) : goodRef (some (.tbl t)) := trivial

theorem goodRef_withAlias {tr : TableRef} (a : String)
    (h : goodRef (some tr)) : goodRef (some (tr.withAlias a)) := by
  cases tr with
  | tbl t => exact trivial
  | orTable ts => exact h

theorem goodRef_map_withAlias {o : Option TableRef} (a : String)
    (h : goodRef o) : goodRef (o.map fun tr => tr.withAlias a) := by
  cases o with
  | none => exact trivial
  | some tr => exact goodRef_withAlias a h

/-- The invariant depends only on the `table` field. -/
theorem goodCol_of_table {c c' : Column} (h : c.table = c'.table)
    (hg : goodCol c') : goodCol c := by
  unfold goodCol
  rw [h]
  exact hg

theorem dedupTablesAux_good : ∀ (l seen : List Table),
    (∀ x ∈ dedupTablesAux l seen, x ∉ seen) ∧ (dedupTablesAux l seen).Nodup := by
  intro l
  induction l with
  | nil => intro seen; simp [dedupTablesAux]
  | cons t ts ih =>
    intro seen
    simp only [dedupTablesAux]
    by_cases h : t ∈ seen
    · simpa [h] using ih seen
    · have ih2 := ih (t :: seen)
      simp only [h, if_neg, not_false_iff]
      constructor
      · intro x hx
        rcases List.mem_cons.mp hx with rfl | hx2
        · exact h
        · have := ih2.1 x hx2
          intro hseen
          exact this (List.mem_cons_of_mem t hseen)
      · refine List.nodup_cons.mpr ⟨?_, ih2.2⟩
        intro hmem
        exact ih2.1 t hmem (List.mem_cons_self t seen)

theorem dedupTables_nodup (l : List Table) : (dedupTables l).Nodup :=
  (dedupTablesAux_good l []).2

/-- Steps 2 and 3 of resolution preserve the `OrTable` invariant: every
emitted column's origin is the origin of one of the candidates. -/
theorem resolveMatches_good (col : Column) (cands : List Column)
    (h : ∀ c ∈ cands, goodCol c) :
    ∀ r ∈ resolveMatches col cands, goodCol r := by
  intro r hr
  unfold resolveMatches at hr
  by_cases hw : (col.col_name == "*") = true
  · rw [if_pos hw] at hr
    rcases List.mem_map.mp hr with ⟨cand, hcand, heq⟩
    by_cases hcw : (cand.col_name == "*") = true
    · rw [if_pos hcw] at heq
      exact goodCol_of_table (by rw [← heq]) (h cand hcand)
    · rw [if_neg hcw] at heq
      rw [← heq]
      exact h cand hcand
  · rw [if_neg hw] at hr
    simp only at hr
    split at hr
    · rcases List.mem_map.mp hr with ⟨cand, hcand, heq⟩
      exact goodCol_of_table (by rw [← heq]) (h cand (List.mem_of_mem_filter hcand))
    · split at hr
      · rcases List.mem_map.mp hr with ⟨cand, hcand, heq⟩
        exact goodCol_of_table (by rw [← heq]) (h cand (List.mem_of_mem_filter hcand))
      · rcases List.mem_map.mp hr with ⟨cand, hcand, heq⟩
        exact goodCol_of_table (by rw [← heq]) (h cand (List.mem_of_mem_filter hcand))

/-- The resolution algorithm preserves the `OrTable` invariant: an
`OrTable` is only ever built from at least two distinct tables, and
single-table results stay plain. -/
theorem resolve_good (col : Column) (processed : List Column)
    (h : ∀ c ∈ processed, goodCol c) :
    ∀ r ∈ col.resolve processed, goodCol r := by
  intro r hr
  unfold Column.resolve at hr
  have hcands : ∀ c ∈ (match qualifierOf col with
      | none => processed
      | some q => processed.filter (matchesQualifier q)), goodCol c := by
    cases hq : qualifierOf col with
    | none => simpa using h
    | some q =>
      simp only
      intro c hc
      exact h c (List.mem_of_mem_filter hc)
  set cands := (match qualifierOf col with
      | none => processed
      | some q => processed.filter (matchesQualifier q)) with hcdef
  simp only [collapseAmbiguity] at hr
  split at hr
  · rename_i hcond
    rcases List.mem_singleton.mp hr with rfl
    show goodRef (some (.orTable (resolvedTables (resolveMatches col cands))))
    refine ⟨?_, ?_⟩
    · have := (Bool.and_eq_true _ _).mp hcond
      exact of_decide_eq_true this.1
    · exact dedupTables_nodup _
  · exact resolveMatches_good col cands hcands r hr

/-- Every T-SQL listener callback preserves the `OrTable` invariant. -/
theorem tsql_step_good (s : ListenerState) (e : TSql.Event)
    (h : goodState s) : goodState (TSql.step s e) := by
  obtain ⟨h1, h2, h3, h4⟩ := h
  cases e with
  | column_elem n t a =>
    refine ⟨h1, h2, ?_, h4⟩
    intro c hc
    simp only [TSql.step, TSql.exitColumn_elem] at hc
    injection hc with hc
    rw [← hc]
    cases t <;> cases a <;>
      first
        | exact goodRef_tbl _
        | exact goodRef_none
  | asterisk t =>
    refine ⟨h1, ?_, ?_, h4⟩
    · intro c hc
      simp only [TSql.step, TSql.exitAsterisk] at hc
      rcases List.mem_append.mp hc with hmem | hmem
      · split at hmem
        · split at hmem
          · exact h2 c (List.Sublist.mem hmem (List.dropLast_sublist _))
          · exact h2 c hmem
        · exact h2 c hmem
      · rcases List.mem_singleton.mp hmem with rfl
        show goodRef (t.map fun tn => .tbl { name := tn })
        cases t with
        | none => exact goodRef_none
        | some tn => exact goodRef_tbl _
    · intro c hc
      simp only [TSql.step, TSql.exitAsterisk] at hc
      exact Option.noConfusion hc
  | select_list_elem =>
    cases hcur : s.current_col with
    | none =>
      refine ⟨?_, ?_, ?_, ?_⟩ <;>
          simp only [TSql.step, TSql.exitSelect_list_elem, hcur]
      · exact h1
      · exact h2
      · intro c hc
        exact Option.noConfusion hc
      · exact h4
    | some c0 =>
      refine ⟨?_, ?_, ?_, ?_⟩ <;>
          simp only [TSql.step, TSql.exitSelect_list_elem, hcur]
      · exact h1
      · intro c hc
        rcases List.mem_append.mp hc with hmem | hmem
        · exact h2 c hmem
        · rcases List.mem_singleton.mp hmem with rfl
          exact h3 _ hcur
      · intro c hc
        exact Option.noConfusion hc
      · exact h4
  | table_name txt =>
    refine ⟨h1, h2, ?_, h4⟩
    intro c hc
    simp only [TSql.step, TSql.exitTable_name] at hc
    injection hc with hc
    rw [← hc]
    exact goodRef_tbl _
  | table_source_item a =>
    cases hcur : s.current_col with
    | some c0 =>
      refine ⟨?_, ?_, ?_, ?_⟩ <;>
          simp only [TSql.step, TSql.exitTable_source_item, hcur]
      · intro c hc
        rcases List.mem_append.mp hc with hmem | hmem
        · exact h1 c hmem
        · rcases List.mem_singleton.mp hmem with rfl
          have hg := h3 c0 hcur
          cases htbl : c0.table with
          | none => cases a <;> exact hg
          | some tr =>
            cases a with
            | none => exact hg
            | some a2 =>
              show goodRef (some (tr.withAlias (removeDoubleQuotes a2)))
              have hg2 : goodRef c0.table := hg
              rw [htbl] at hg2
              exact goodRef_withAlias _ hg2
      · exact h2
      · intro c hc
        exact Option.noConfusion hc
      · exact h4
    | none =>
      cases a with
      | some a2 =>
        refine ⟨?_, ?_, ?_, ?_⟩ <;>
            simp only [TSql.step, TSql.exitTable_source_item, hcur]
        · intro c hc
          rcases List.mem_map.mp hc with ⟨c1, hc1, heq⟩
          rw [← heq]
          show goodRef (c1.table.map fun tr => tr.withAlias (removeDoubleQuotes a2))
          exact goodRef_map_withAlias _ (h1 c1 hc1)
        · exact h2
        · intro c hc
          exact Option.noConfusion hc
        · exact h4
      | none =>
        refine ⟨?_, ?_, ?_, ?_⟩ <;>
            simp only [TSql.step, TSql.exitTable_source_item, hcur]
        · exact h1
        · exact h2
        · intro c hc
          exact Option.noConfusion hc
        · exact h4
  | enterQuerySpec =>
    by_cases hemp : s.processing_cols.isEmpty = true
    · refine ⟨?_, ?_, ?_, ?_⟩ <;>
          simp only [TSql.step, TSql.enterQuery_specification, hemp, if_pos]
      · exact h1
      · exact h2
      · exact h3
      · exact h4
    · refine ⟨?_, ?_, ?_, ?_⟩ <;>
          simp only [TSql.step, TSql.enterQuery_specification, hemp, if_neg,
            Bool.false_eq_true, not_false_iff]
      · exact h1
      · intro c hc
        exact absurd hc (List.not_mem_nil c)
      · exact h3
      · intro l hl
        rcases List.mem_append.mp hl with hmem | hmem
        · exact h4 l hmem
        · rcases List.mem_singleton.mp hmem with rfl
          exact h2
  | exitQuerySpec =>
    have hres : ∀ c ∈ (s.processing_cols.flatMap fun col => col.resolve s.processed_cols),
        goodCol c := by
      intro c hc
      rcases List.mem_flatMap.mp hc with ⟨col, _, hcr⟩
      exact resolve_good col s.processed_cols h1 c hcr
    cases hlast : s.stack.getLast? with
    | some top =>
      refine ⟨?_, ?_, ?_, ?_⟩ <;>
          simp only [TSql.step, TSql.exitQuery_specification, hlast]
      · exact hres
      · intro c hc
        exact h4 top (List.mem_of_mem_getLast? hlast) c hc
      · intro c hc
        exact Option.noConfusion hc
      · intro l hl
        exact h4 l (List.Sublist.mem hl (List.dropLast_sublist _))
    | none =>
      refine ⟨?_, ?_, ?_, ?_⟩ <;>
          simp only [TSql.step, TSql.exitQuery_specification, hlast]
      · exact hres
      · intro c hc
        exact absurd hc (List.not_mem_nil c)
      · intro c hc
        exact Option.noConfusion hc
      · exact h4

/-- The `OrTable` invariant holds along any T-SQL walk. -/
theorem tsql_run_good (s : ListenerState) (es : List TSql.Event)
    (h : goodState s) : goodState (TSql.run s es) := by
  induction es generalizing s with
  | nil => exact h
  | cons e es ih => exact ih (TSql.step s e) (tsql_step_good s e h)

/-- The initial listener state satisfies the `OrTable` invariant. -/
theorem initState_good : goodState initState := by
  refine ⟨?_, ?_, ?_, ?_⟩
  · intro c hc
    exact absurd hc (List.not_mem_nil c)
  · intro c hc
    exact absurd hc (List.not_mem_nil c)
  · intro c hc
    exact Option.noConfusion hc
  · intro l hl
    exact absurd hl (List.not_mem_nil l)

/-- Every Presto listener callback preserves the `OrTable` invariant. -/
theorem presto_step_good (s : ListenerState) (e : Presto.Event)
    (h : goodState s) : goodState (Presto.step s e) := by
  obtain ⟨h1, h2, h3, h4⟩ := h
  cases e with
  | columnReference txt =>
    refine ⟨h1, h2, ?_, h4⟩
    intro c hc
    simp only [Presto.step, Presto.exitColumnReference] at hc
    injection hc with hc
    rw [← hc]
    exact goodRef_none
  | dereference b i =>
    refine ⟨h1, h2, ?_, h4⟩
    intro c hc
    simp only [Presto.step, Presto.exitDereference] at hc
    injection hc with hc
    rw [← hc]
    exact goodRef_tbl _
  | selectSingle i =>
    cases hcur : s.current_col with
    | none =>
      refine ⟨?_, ?_, ?_, ?_⟩ <;>
          simp only [Presto.step, Presto.exitSelectSingle, hcur]
      · exact h1
      · exact h2
      · intro c hc
        exact Option.noConfusion hc
      · exact h4
    | some c0 =>
      refine ⟨?_, ?_, ?_, ?_⟩ <;>
          simp only [Presto.step, Presto.exitSelectSingle, hcur]
      · exact h1
      · intro c hc
        rcases List.mem_append.mp hc with hmem | hmem
        · exact h2 c hmem
        · rcases List.mem_singleton.mp hmem with rfl
          have hg := h3 c0 hcur
          cases i with
          | none => exact hg
          | some i2 => exact goodCol_of_table rfl hg
      · intro c hc
        exact Option.noConfusion hc
      · exact h4
  | selectAll q =>
    refine ⟨h1, ?_, ?_, ?_⟩
    · intro c hc
      simp only [Presto.step, Presto.exitSelectAll] at hc
      rcases List.mem_append.mp hc with hmem | hmem
      · exact h2 c hmem
      · rcases List.mem_singleton.mp hmem with rfl
        show goodRef (q.map fun qn => .tbl { name := qn })
        cases q with
        | none => exact goodRef_none
        | some qn => exact goodRef_tbl _
    · intro c hc
      simp only [Presto.step, Presto.exitSelectAll] at hc
      exact Option.noConfusion hc
    · exact h4
  | tableName txt =>
    refine ⟨h1, h2, ?_, h4⟩
    intro c hc
    simp only [Presto.step, Presto.exitTableName] at hc
    injection hc with hc
    rw [← hc]
    exact goodRef_tbl _
  | aliasedRelation i =>
    cases i with
    | none =>
      refine ⟨?_, ?_, ?_, ?_⟩ <;>
          simp only [Presto.step, Presto.exitAliasedRelation]
      · exact h1
      · exact h2
      · exact h3
      · exact h4
    | some i2 =>
      cases hcur : s.current_col with
      | some c0 =>
        cases htbl : c0.table with
        | some tr =>
          refine ⟨?_, ?_, ?_, ?_⟩ <;>
              simp only [Presto.step, Presto.exitAliasedRelation, hcur, htbl]
          · exact h1
          · exact h2
          · intro c hc
            injection hc with hc
            rw [← hc]
            show goodRef (some (tr.withAlias (removeDoubleQuotes i2)))
            have hg2 : goodRef c0.table := h3 c0 hcur
            rw [htbl] at hg2
            exact goodRef_withAlias _ hg2
          · exact h4
        | none =>
          refine ⟨?_, ?_, ?_, ?_⟩ <;>
              simp only [Presto.step, Presto.exitAliasedRelation, hcur, htbl]
          · intro c hc
            rcases List.mem_map.mp hc with ⟨c1, hc1, heq⟩
            rw [← heq]
            show goodRef (c1.table.map fun tr => tr.withAlias (removeDoubleQuotes i2))
            exact goodRef_map_withAlias _ (h1 c1 hc1)
          · exact h2
          · intro c hc
            injection hc with hc
            rw [← hc]
            exact h3 c0 hcur
          · exact h4
      | none =>
        refine ⟨?_, ?_, ?_, ?_⟩ <;>
            simp only [Presto.step, Presto.exitAliasedRelation, hcur]
        · intro c hc
          rcases List.mem_map.mp hc with ⟨c1, hc1, heq⟩
          rw [← heq]
          show goodRef (c1.table.map fun tr => tr.withAlias (removeDoubleQuotes i2))
          exact goodRef_map_withAlias _ (h1 c1 hc1)
        · exact h2
        · intro c hc
          exact Option.noConfusion hc
        · exact h4
  | relationDefault =>
    cases hcur : s.current_col with
    | none =>
      refine ⟨?_, ?_, ?_, ?_⟩ <;>
          simp only [Presto.step, Presto.exitRelationDefault, hcur]
      · exact h1
      · exact h2
      · intro c hc
        exact Option.noConfusion hc
      · exact h4
    | some c0 =>
      refine ⟨?_, ?_, ?_, ?_⟩ <;>
          simp only [Presto.step, Presto.exitRelationDefault, hcur]
      · intro c hc
        rcases List.mem_append.mp hc with hmem | hmem
        · exact h1 c hmem
        · rcases List.mem_singleton.mp hmem with rfl
          exact h3 _ hcur
      · exact h2
      · intro c hc
        exact Option.noConfusion hc
      · exact h4
  | enterQuerySpec =>
    by_cases hemp : s.processing_cols.isEmpty = true
    · refine ⟨?_, ?_, ?_, ?_⟩ <;>
          simp only [Presto.step, Presto.enterQuerySpecification, hemp, if_pos]
      · exact h1
      · exact h2
      · exact h3
      · exact h4
    · refine ⟨?_, ?_, ?_, ?_⟩ <;>
          simp only [Presto.step, Presto.enterQuerySpecification, hemp, if_neg,
            Bool.false_eq_true, not_false_iff]
      · exact h1
      · intro c hc
        exact absurd hc (List.not_mem_nil c)
      · exact h3
      · intro l hl
        rcases List.mem_append.mp hl with hmem | hmem
        · exact h4 l hmem
        · rcases List.mem_singleton.mp hmem with rfl
          exact h2
  | exitQuerySpec =>
    have hres : ∀ c ∈ (s.processing_cols.flatMap fun col => col.resolve s.processed_cols),
        goodCol c := by
      intro c hc
      rcases List.mem_flatMap.mp hc with ⟨col, _, hcr⟩
      exact resolve_good col s.processed_cols h1 c hcr
    cases hlast : s.stack.getLast? with
    | some top =>
      refine ⟨?_, ?_, ?_, ?_⟩ <;>
          simp only [Presto.step, Presto.exitQuerySpecification, hlast]
      · exact hres
      · intro c hc
        exact h4 top (List.mem_of_mem_getLast? hlast) c hc
      · intro c hc
        exact Option.noConfusion hc
      · intro l hl
        exact h4 l (List.Sublist.mem hl (List.dropLast_sublist _))
    | none =>
      refine ⟨?_, ?_, ?_, ?_⟩ <;>
          simp only [Presto.step, Presto.exitQuerySpecification, hlast]
      · exact hres
      · intro c hc
        exact absurd hc (List.not_mem_nil c)
      · intro c hc
        exact Option.noConfusion hc
      · exact h4

/-- The `OrTable` invariant holds along any Presto walk. -/
theorem presto_run_good (s : ListenerState) (es : List Presto.Event)
    (h : goodState s) : goodState (Presto.run s es) := by
  induction es generalizing s with
  | nil => exact h
  | cons e es ih => exact ih (Presto.step s e) (presto_step_good s e h)

/-- The invariant of a column, spelled out. -/
theorem goodCol_iff (c : Column) :
    goodCol c ↔ (∀ ts, c.table = some (.orTable ts) → 2 ≤ ts.length ∧ ts.Nodup) := by
  constructor
  · intro hg ts hts
    have hg2 : goodRef c.table := hg
    rw [hts] at hg2
    exact hg2
  · intro hall
    show goodRef c.table
    cases hct : c.table with
    | none => exact trivial
    | some tr =>
      cases tr with
      | tbl t => exact trivial
      | orTable ts => exact hall ts hct

/-- Events exhibiting an ambiguous unqualified reference over two joined
tables, used to witness the `OrTable` invariant on a concrete run. -/
def c3WitnessEvents : List TSql.Event :=
  [ .column_elem "A" none none,
    .select_list_elem,
    .table_name "T1",
    .table_source_item none,
    .table_name "T2",
    .table_source_item none,
    .exitQuerySpec ]

/-- C3: every `OrTable` reachable in the output of either dialect's walk
from a fresh listener lists at least two pairwise-distinct tables, and the
resolution algorithm itself never produces an `OrTable` with fewer than two
distinct alternatives - a resolution with a single candidate table keeps a
plain `Table`. -/
theorem c3_orTable_invariant :
    (∀ (col : Column) (processed : List Column),
      (∀ c ∈ processed, ∀ ts, c.table = some (.orTable ts) →
        2 ≤ ts.length ∧ ts.Nodup) →
      ∀ r ∈ col.resolve processed, ∀ ts, r.table = some (.orTable ts) →
        2 ≤ ts.length ∧ ts.Nodup)
    ∧ (∀ (es : List TSql.Event), ∀ c ∈ (TSql.run initState es).processed_cols,
        ∀ ts, c.table = some (.orTable ts) → 2 ≤ ts.length ∧ ts.Nodup)
    ∧ (∀ (ps : List Presto.Event), ∀ c ∈ (Presto.run initState ps).processed_cols,
        ∀ ts, c.table = some (.orTable ts) → 2 ≤ ts.length ∧ ts.Nodup) := by
  refine ⟨?_, ?_, ?_⟩
  · intro col processed hproc r hr
    rw [← goodCol_iff]
    refine resolve_good col processed ?_ r hr
    intro c hc
    rw [goodCol_iff]
    exact hproc c hc
  · intro es c hc
    rw [← goodCol_iff]
    exact (tsql_run_good initState es initState_good).1 c hc
  · intro ps c hc
    rw [← goodCol_iff]
    exact (presto_run_good initState ps initState_good).1 c hc

/-- Witness for C3: on the concrete ambiguous join above, the output
column's `OrTable` has two distinct alternatives. -/
theorem c3_orTable_invariant_witness :
    2 ≤ ([ { name := "T1" }, { name := "T2" } ] : List Table).length
    ∧ ([ { name := "T1" }, { name := "T2" } ] : List Table).Nodup :=
  c3_orTable_invariant.2.1 c3WitnessEvents
    { col_name := "A",
      table := some (.orTable [ { name := "T1" }, { name := "T2" } ]) }
    (by decide)
    [ { name := "T1" }, { name := "T2" } ] rfl
